import Mathlib

/-!
Verification of the minidump-writer process-snapshot engine.

This file gives a shallow embedding of the core algorithms of the
repository (the stack sanitizer, the mapping lookups, the ELF build-id
fallback hash, the directory-section writer, the dump driver, the Linux
process reader probe, and the nul-terminated string copiers), translated
from the Rust sources, together with theorems settling the specification
claims about them.

Machine integers are modelled as `Nat` (the code targets
`target_pointer_width = "64"`, so a machine word is 8 bytes and word
values live below `2 ^ 64`); byte buffers are `List Nat` with each
element below 256; fallible code returns `Option` or `Except`.
-/

/-! ## Mapping model

`MappingInfo` lives in `maps_reader.rs`, which is not among the provided
sources; the structure below is modelled from the spec's data model.
-/

/-- Modelled from the spec: the unbiased kernel-reported range of a
mapping (`system_range` in the spec's `MappingInfo`); `maps_reader.rs`
is not under the provided sources. -/
structure SystemMappingInfo where
  start_address : Nat
  end_address : Nat
deriving Repr, DecidableEq

/-- Modelled from the spec: `MappingInfo` (`maps_reader.rs` is not under
the provided sources): `{ start, size, file_offset, is_executable,
system_range }`; `start` may be biased to the first executable segment
while `system_range` preserves the unbiased kernel-reported range. -/
structure MappingInfo where
  start_address : Nat
  size : Nat
  offset : Nat
  executable : Bool
  system_mapping_info : SystemMappingInfo
deriving Repr, DecidableEq

/-- Modelled from the spec: membership of an address in a mapping
(`MappingInfo::contains_address` in `maps_reader.rs` is not under the
provided sources); tested against the unbiased `system_range`, which is
the range every lookup inside `sanitize_stack_copy` uses. -/
def MappingInfo.contains_address (m : MappingInfo) (address : Nat) : Bool :=
  decide (m.system_mapping_info.start_address ≤ address ∧
    address < m.system_mapping_info.end_address)

/-- The biased range `[start_address, start_address + size)` of a mapping. -/
def inBiasedRange (m : MappingInfo) (x : Nat) : Prop :=
  m.start_address ≤ x ∧ x < m.start_address + m.size

/-- The unbiased kernel-reported range of a mapping. -/
def inSystemRange (m : MappingInfo) (x : Nat) : Prop :=
  m.system_mapping_info.start_address ≤ x ∧ x < m.system_mapping_info.end_address

instance (m : MappingInfo) (x : Nat) : Decidable (inBiasedRange m x) := by
  unfold inBiasedRange; infer_instance

instance (m : MappingInfo) (x : Nat) : Decidable (inSystemRange m x) := by
  unfold inSystemRange; infer_instance

/-- `LinuxPtraceDumper::find_mapping`: first mapping whose biased range
contains the address. -/
def find_mapping (mappings : List MappingInfo) (address : Nat) : Option MappingInfo :=
  mappings.find? fun map =>
    decide (address ≥ map.start_address) && decide (address - map.start_address < map.size)

/-- `LinuxPtraceDumper::find_mapping_no_bias`: first mapping whose
unadjusted (kernel-reported) range contains the address. -/
def find_mapping_no_bias (mappings : List MappingInfo) (address : Nat) : Option MappingInfo :=
  mappings.find? fun map =>
    decide (address ≥ map.system_mapping_info.start_address) &&
      decide (address < map.system_mapping_info.end_address)

/-! ## Stack sanitizer (`LinuxPtraceDumper::sanitize_stack_copy`) -/

/-- The sentinel written over redacted words (64-bit value of
`0x0defaced0defaced`). -/
def defacedVal : Nat := 0x0defaced0defaced

/-- `test_bits = 11`: the bitfield is `2 ^ test_bits` bits long. -/
def test_bits : Nat := 11

/-- Byte length of the bitfield array: `1 << (test_bits - 3)` = 256. -/
def array_size : Nat := 1 <<< (test_bits - 3)

/-- `array_mask = array_size - 1`. -/
def array_mask : Nat := array_size - 1

/-- The amount pointers are shifted right by: `32 - 11` = 21. -/
def shift : Nat := 32 - 11

/-- Reinterpretation of a 64-bit word as a signed integer
(`isize::from_ne_bytes` of the same bytes as the unsigned value). -/
def toSigned (addr : Nat) : Int :=
  if addr < 2 ^ 63 then (addr : Int) else (addr : Int) - 2 ^ 64

/-- One update of the bitfield:
`could_hit_mapping[(bit >> 3) & array_mask] |= 1 << (bit & 7)`. -/
def setBit (field : List Nat) (bit : Nat) : List Nat :=
  field.set ((bit >>> 3) &&& array_mask)
    ((field.getD ((bit >>> 3) &&& array_mask) 0) ||| (1 <<< (bit &&& 7)))

/-- The inner loop `for bit in start..=end { ... }` setting every bit of
the (unmodulo'ed) range, applying the modulus. -/
def setBitRange (field : List Nat) (bit endBit : Nat) : List Nat :=
  if bit ≤ endBit then setBitRange (setBit field bit) (bit + 1) endBit else field
termination_by endBit + 1 - bit
decreasing_by omega

/-- The probabilistic membership bitfield built over the executable
mappings: for each executable mapping, bits
`start >> shift ..= (start + size) >> shift` are set. -/
def could_hit_mapping (mappings : List MappingInfo) : List Nat :=
  mappings.foldl
    (fun field mapping =>
      if !mapping.executable then field
      else
        setBitRange field (mapping.start_address >>> shift)
          ((mapping.start_address + mapping.size) >>> shift))
    (List.replicate array_size 0)

/-- The bitfield probe
`could_hit_mapping[(test >> 3) & array_mask] & (1 << (test & 7)) != 0`. -/
def bitfieldHit (field : List Nat) (bit : Nat) : Bool :=
  decide ((field.getD ((bit >>> 3) &&& array_mask) 0) &&& (1 <<< (bit &&& 7)) ≠ 0)

/-- The body of the per-word sanitization loop of `sanitize_stack_copy`.
Returns `(deface, last_hit)` where `deface` is `true` exactly when the
word is overwritten with the sentinel, and `last_hit` is the updated
last-hit mapping cache. -/
def sanitizeStep (mappings : List MappingInfo) (stack_mapping : Option MappingInfo)
    (field : List Nat) (last_hit : Option MappingInfo) (addr : Nat) :
    Bool × Option MappingInfo :=
  if addr ≤ 4096 ∧ toSigned addr ≥ -4096 then
    (false, last_hit)
  else if (stack_mapping.map (·.contains_address addr)).getD false then
    (false, last_hit)
  else if (last_hit.map (·.contains_address addr)).getD false then
    (false, last_hit)
  else if bitfieldHit field (addr >>> shift) then
    match find_mapping_no_bias mappings addr with
    | some hit => if hit.executable then (false, some hit) else (true, last_hit)
    | none => (true, last_hit)
  else
    (true, last_hit)

/-- The per-word sanitization loop: each pointer-aligned word is kept or
replaced by the sentinel, threading the last-hit mapping cache. -/
def sanitizeWords (mappings : List MappingInfo) (stack_mapping : Option MappingInfo)
    (field : List Nat) : Option MappingInfo → List Nat → List Nat
  | _, [] => []
  | last_hit, w :: ws =>
    let r := sanitizeStep mappings stack_mapping field last_hit w
    (if r.1 then defacedVal else w) :: sanitizeWords mappings stack_mapping field r.2 ws

/-- Companion trace of the sanitization loop: for each word, the deface
decision together with the last-hit cache as it stood when the word was
examined. -/
def sanitizeTrace (mappings : List MappingInfo) (stack_mapping : Option MappingInfo)
    (field : List Nat) : Option MappingInfo → List Nat → List (Bool × Option MappingInfo)
  | _, [] => []
  | last_hit, w :: ws =>
    let r := sanitizeStep mappings stack_mapping field last_hit w
    (r.1, last_hit) :: sanitizeTrace mappings stack_mapping field r.2 ws

/-- Little-endian word from 8 bytes (`usize::from_ne_bytes` on x86-64). -/
def fromLEBytes (bs : List Nat) : Nat :=
  bs.foldr (fun b acc => b + 256 * acc) 0

/-- Little-endian bytes of a 64-bit word (`usize::to_ne_bytes` on x86-64). -/
def toLEBytes (w : Nat) : List Nat :=
  [w % 256, w / 256 % 256, w / 256 ^ 2 % 256, w / 256 ^ 3 % 256,
   w / 256 ^ 4 % 256, w / 256 ^ 5 % 256, w / 256 ^ 6 % 256, w / 256 ^ 7 % 256]

/-- Split a byte list into complete 8-byte chunks plus remainder
(`chunks_exact_mut`). -/
def wordChunks (bs : List Nat) : List (List Nat) × List Nat :=
  if h : 8 ≤ bs.length then
    let r := wordChunks (bs.drop 8)
    (bs.take 8 :: r.1, r.2)
  else ([], bs)
termination_by bs.length
decreasing_by simp; omega

/-- `LinuxPtraceDumper::sanitize_stack_copy` at the byte level: zero the
bytes below the (word-aligned) stack-pointer offset, sanitize each
complete word above it, and zero any trailing partial word. -/
def sanitize_stack_copy (mappings : List MappingInfo) (stack_copy : List Nat)
    (stack_pointer : Nat) (sp_offset : Nat) : List Nat :=
  let stack_mapping := find_mapping_no_bias mappings stack_pointer
  let field := could_hit_mapping mappings
  -- (sp_offset + 7) & !7, i.e. sp_offset rounded up to a word boundary
  let offset := (sp_offset + 8 - 1) - ((sp_offset + 8 - 1) % 8)
  let lower := (stack_copy.take offset).map (fun _ => 0)
  let rest := stack_copy.drop offset
  let chunks := wordChunks rest
  let words := chunks.1.map fromLEBytes
  let words := sanitizeWords mappings stack_mapping field none words
  lower ++ (words.map toLEBytes).flatten ++ chunks.2.map (fun _ => 0)

/-! ## Thread-info index lookup (`LinuxPtraceDumper::get_thread_info_by_index`) -/

/-- Outcome of `get_thread_info_by_index`: either the guard returns an
error, or `ThreadInfo::create(pid, tid)` is invoked with the indexed
thread id, or the Rust vector indexing `self.threads[index]` panics
because the index is out of bounds. -/
inductive ThreadInfoResult where
  | err
  | ok (tid : Nat)
  | panic
deriving Repr, DecidableEq

/-- `LinuxPtraceDumper::get_thread_info_by_index`: the guard rejects
`index > threads.len()`; otherwise `self.threads[index]` is read (a Rust
panic when `index` is out of bounds for the vector). -/
def get_thread_info_by_index (threads : List Nat) (index : Nat) : ThreadInfoResult :=
  if index > threads.length then .err
  else
    match threads[index]? with
    | some tid => .ok tid
    | none => .panic

/-! ## ELF build-id fallback
(`LinuxPtraceDumper::elf_file_identifier_from_mapped_file`, branch taken
when no `NT_GNU_BUILD_ID` note exists; the goblin header parsing is an
external crate, the XOR-fold over the first page of the text section is
the code embedded here.) -/

/-- ELF section header fields used by the fallback. -/
structure SectionHeader where
  sh_type : Nat
  sh_flags : Nat
  sh_offset : Nat
  sh_size : Nat
deriving Repr, DecidableEq

/-- `SHT_PROGBITS`. -/
def SHT_PROGBITS : Nat := 1

/-- `SHF_ALLOC`. -/
def SHF_ALLOC : Nat := 2

/-- `SHF_EXECINSTR`. -/
def SHF_EXECINSTR : Nat := 4

/-- Size in bytes of `MDGUID`. -/
def MDGUID_SIZE : Nat := 16

/-- One byte of the text section view
`slice::from_raw_parts(mem_slice.as_ptr().offset(sh_offset), sh_size)`,
indexed at `i`. The Rust code performs this access unchecked: indexing
at `i >= sh_size` panics and a view beyond `mem_slice` is out of bounds;
both are modelled as an error value. -/
def readTextByte (mem_slice : List Nat) (sh_offset sh_size i : Nat) : Except String Nat :=
  if i < sh_size ∧ sh_offset + i < mem_slice.length then
    .ok (mem_slice.getD (sh_offset + i) 0)
  else
    .error "out of bounds access"

/-- Inner loop `for idx in 0..size_of::<MDGUID>() { result[idx] ^= text_section[offset + idx] }`. -/
def xorBlockLoop (mem_slice : List Nat) (sh_offset sh_size : Nat) (result : List Nat)
    (offset idx : Nat) : Except String (List Nat) :=
  if idx < MDGUID_SIZE then
    match readTextByte mem_slice sh_offset sh_size (offset + idx) with
    | .error e => .error e
    | .ok b =>
      xorBlockLoop mem_slice sh_offset sh_size
        (result.set idx ((result.getD idx 0) ^^^ b)) offset (idx + 1)
  else .ok result
termination_by MDGUID_SIZE - idx
decreasing_by simp_all [MDGUID_SIZE]; omega

/-- Outer loop `while offset < 4096 { ...; offset += size_of::<MDGUID>() }`. -/
def xorFoldLoop (mem_slice : List Nat) (sh_offset sh_size : Nat) (result : List Nat)
    (offset : Nat) : Except String (List Nat) :=
  if offset < 4096 then
    match xorBlockLoop mem_slice sh_offset sh_size result offset 0 with
    | .error e => .error e
    | .ok r => xorFoldLoop mem_slice sh_offset sh_size r (offset + MDGUID_SIZE)
  else .ok result
termination_by 4096 - offset
decreasing_by simp [MDGUID_SIZE]; omega

/-- Whether a section header is the text-section candidate the fallback
looks for: progbits, allocated, executable. -/
def isTextCandidate (s : SectionHeader) : Bool :=
  decide (s.sh_type = SHT_PROGBITS) && decide (s.sh_flags &&& SHF_ALLOC ≠ 0) &&
    decide (s.sh_flags &&& SHF_EXECINSTR ≠ 0)

/-- The build-id fallback of `elf_file_identifier_from_mapped_file`:
scan the section headers for the first allocated executable progbits
section and XOR-fold the first page of its contents into a 16-byte
result. -/
def elf_file_identifier_fallback (sections : List SectionHeader) (mem_slice : List Nat) :
    Except String (List Nat) :=
  match sections with
  | [] => .error "No build-id found"
  | s :: rest =>
    if s.sh_type ≠ SHT_PROGBITS then elf_file_identifier_fallback rest mem_slice
    else if s.sh_flags &&& SHF_ALLOC ≠ 0 then
      if s.sh_flags &&& SHF_EXECINSTR ≠ 0 then
        xorFoldLoop mem_slice s.sh_offset s.sh_size (List.replicate MDGUID_SIZE 0) 0
      else elf_file_identifier_fallback rest mem_slice
    else elf_file_identifier_fallback rest mem_slice

/-! ## Directory section writer (`DirSection` in `minidump_writer.rs`)

The in-memory dump buffer is a byte list whose cursor sits at its end
(the writers only append). Writes to the destination sink are recorded
as an ordered event trace: `patch` is a seek-and-write at an absolute
position (followed by a seek back), `append` is a write at the current
end of the sink.
-/

/-- One write to the destination sink. -/
inductive SinkEvent where
  | patch (pos : Nat) (bytes : List Nat)
  | append (bytes : List Nat)
deriving Repr, DecidableEq

/-- Byte size of one `MDRawDirectory` entry (three `u32` fields). -/
def dirEntrySize : Nat := 12

/-- State of `DirSection` (the borrowed destination is represented by
the event trace returned from each operation). -/
structure DirSectionState where
  curr_idx : Nat
  /-- Position of the directory array inside the dump buffer
  (`section.position` of the `MemoryArrayWriter`). -/
  section_rva : Nat
  destination_start_offset : Nat
  last_position_written_to_file : Nat
deriving Repr, DecidableEq

/-- Modelled from the spec: `MemoryArrayWriter::location_of_index`
(`mem_writer` is not under the provided sources); entry `i` of the
directory array sits at `section position + i * entry size` in the dump
buffer. -/
def location_of_index (st : DirSectionState) (i : Nat) : Nat × Nat :=
  (st.section_rva + i * dirEntrySize, dirEntrySize)

/-- Overwrite `bytes` into `buf` at position `pos` (the
`MemoryArrayWriter::set_value_at` in-buffer patch). -/
def writeAt (buf : List Nat) (pos : Nat) (bytes : List Nat) : List Nat :=
  buf.take pos ++ bytes ++ buf.drop (pos + bytes.length)

/-- `DirSection::dump_dir_entry`: patch the entry into the dump buffer,
then seek the sink to the entry's slot, write the entry bytes there, and
seek back. Returns the updated state, the updated buffer and the sink
events emitted, in order. -/
def dump_dir_entry (st : DirSectionState) (buf : List Nat) (dirent : List Nat) :
    DirSectionState × List Nat × List SinkEvent :=
  let loc := location_of_index st st.curr_idx
  let buf := writeAt buf loc.1 dirent
  let ev : SinkEvent :=
    .patch (st.destination_start_offset + loc.1) ((buf.drop loc.1).take loc.2)
  ({ st with curr_idx := st.curr_idx + 1 }, buf, [ev])

/-- `DirSection::write_to_file`: first patch the directory entry into
the sink (when one is given), then append to the sink everything added
to the dump buffer since the last call. -/
def write_to_file (st : DirSectionState) (buf : List Nat) (dirent : Option (List Nat)) :
    DirSectionState × List Nat × List SinkEvent :=
  let r := match dirent with
    | some d => dump_dir_entry st buf d
    | none => (st, buf, [])
  let st := r.1
  let buf := r.2.1
  let body : SinkEvent := .append (buf.drop st.last_position_written_to_file)
  ({ st with last_position_written_to_file := buf.length }, buf,
    r.2.2 ++ [body])

/-! ## Dump driver (`MinidumpWriter::dump`)

The fallible environment steps (`LinuxPtraceDumper::new`,
`suspend_threads`, `generate_dump`, `resume_threads`) are parameters:
their internals do file and ptrace I/O. A dumper is represented by its
mapping list, which is all `dump` itself consumes from it.
-/

/-- `MinidumpWriter::dump`: create the dumper, suspend the threads, and
if `skip_stacks_if_mapping_unreferenced` is set, look up the principal
mapping and abort (the crashing-thread-references-principal-mapping
check is unimplemented, `if true { return Err(...) }`); otherwise
generate the dump and resume the threads. Returns the result together
with the sink event trace (only `generate_dump` writes to the sink). -/
def MinidumpWriter.dump (new_result : Except String (List MappingInfo))
    (suspend_result : List MappingInfo → Except String (List MappingInfo))
    (generate_dump : List MappingInfo → Except String (List Nat) × List SinkEvent)
    (resume_result : Except String Unit)
    (skip_stacks_if_mapping_unreferenced : Bool)
    (principal_mapping_address : Option Nat) :
    Except String (List Nat) × List SinkEvent :=
  match new_result with
  | .error e => (.error e, [])
  | .ok dumper =>
    match suspend_result dumper with
    | .error e => (.error e, [])
    | .ok dumper =>
      if skip_stacks_if_mapping_unreferenced then
        let _principal_mapping :=
          principal_mapping_address.map (find_mapping_no_bias dumper)
        (.error "!CrashingThreadReferencesPrincipalMapping", [])
      else
        match generate_dump dumper with
        | (.error e, evs) => (.error e, evs)
        | (.ok buffer, evs) =>
          match resume_result with
          | .error e => (.error e, evs)
          | .ok _ => (.ok buffer, evs)

/-! ## Linux process reader (`ProcessReader::read` in `linux/process_reader.rs`) -/

/-- An errno-carrying `nix::Error`. -/
abbrev NixErr := Nat

/-- The cached read mechanism (`Style`): set at most once, starting
unset (`OnceLock`). -/
inductive Style where
  | virtualMem
  | file (f : Nat)
  | ptraceStyle
  | unavailable (vmem : NixErr) (fileErr : NixErr) (ptraceErr : NixErr)
deriving Repr, DecidableEq

/-- The error type returned by `ProcessReader::read`. -/
structure CopyFromProcessError where
  child : Nat
  src : Nat
  offset : Nat
  length : Nat
  source : NixErr
deriving Repr, DecidableEq

/-- Outcomes of the OS mechanisms for one `read` call: the
scatter-gather syscall, opening `/proc/<pid>/mem`, positional reads on
the opened file, and the ptrace word reader (whose error carries the
offset reached). -/
structure ReadEnv where
  vmem_result : Except NixErr Nat
  open_result : Except NixErr Nat
  file_result : Nat → Except NixErr Nat
  ptrace_result : Except (NixErr × Nat) Nat
deriving Inhabited

/-- The tail of the probe in `ProcessReader::read`: try the ptrace word
reader; on failure cache `Style::Unavailable` with all three errors and
return an error whose source is the ptrace error. -/
def readProbePtrace (pid src len : Nat) (env : ReadEnv) (vmemErr fileErr : NixErr) :
    Option Style × Except CopyFromProcessError Nat :=
  match env.ptrace_result with
  | .ok l => (some .ptraceStyle, .ok l)
  | .error pe =>
    (some (.unavailable vmemErr fileErr pe.1),
      .error ⟨pid, src, 0, len, pe.1⟩)

/-- `ProcessReader::read`: if a `Style` is cached, use it (reads under
`Style::Unavailable` fail with the stored ptrace error); otherwise probe
the mechanisms in order of speed, caching the winner, or
`Style::Unavailable` carrying all three errors when everything fails.
Returns the (possibly newly cached) style and the read result. -/
def ProcessReader.read (pid src len : Nat) (env : ReadEnv) (style : Option Style) :
    Option Style × Except CopyFromProcessError Nat :=
  match style with
  | some rs =>
    let res : Except (NixErr × Nat) Nat :=
      match rs with
      | .virtualMem => env.vmem_result.mapError (·, 0)
      | .file f => (env.file_result f).mapError (·, 0)
      | .ptraceStyle => env.ptrace_result
      | .unavailable _ _ pe => .error (pe, 0)
    (some rs, res.mapError fun se => ⟨pid, src, se.2, len, se.1⟩)
  | none =>
    match env.vmem_result with
    | .ok l => (some .virtualMem, .ok l)
    | .error vmemErr =>
      match env.open_result with
      | .ok f =>
        match env.file_result f with
        | .ok l => (some (.file f), .ok l)
        | .error fileErr => readProbePtrace pid src len env vmemErr fileErr
      | .error openErr => readProbePtrace pid src len env vmemErr openErr

/-! ## Nul-terminated string copy (`process_reader.rs`)

Memory of the target is a total byte-valued function on addresses; the
`read` primitive is assumed to fully succeed on the addresses involved
(the claim is about strings placed at readable addresses). Both loops
are given fuel to express their termination.
-/

/-- One iteration chunk of `copy_nul_terminated_string_word_by_word`:
the 8 bytes read at `address + progress`. -/
def wordBytesAt (mem : Nat → Nat) (address : Nat) : List Nat :=
  (List.range 8).map fun i => mem (address + i)

/-- `ProcessReader::copy_nul_terminated_string_word_by_word`: read one
machine word at a time, scan it for a nul, extend the result through the
nul (inclusive) and stop, otherwise keep the whole word and continue.
`none` means the fuel ran out. -/
def copyStringWordByWord (mem : Nat → Nat) (address : Nat) (acc : List Nat) :
    Nat → Option (List Nat)
  | 0 => none
  | fuel + 1 =>
    let word_bytes := wordBytesAt mem (address + acc.length)
    match List.findIdx? (fun e => e == 0) word_bytes with
    | some nul_terminator => some (acc ++ word_bytes.take (nul_terminator + 1))
    | none => copyStringWordByWord mem address (acc ++ word_bytes) fuel

/-- The byte-at-a-time fallback loop of
`ProcessReader::copy_nul_terminated_string`: read single bytes, pushing
each (including the final nul), until a nul is seen. `none` means the
fuel ran out. -/
def copyStringByByte (mem : Nat → Nat) (address : Nat) (acc : List Nat) :
    Nat → Option (List Nat)
  | 0 => none
  | fuel + 1 =>
    let c := mem (address + acc.length)
    let acc := acc ++ [c]
    if c ≠ 0 then copyStringByByte mem address acc fuel else some acc

/-- The first `n` bytes of target memory starting at `address`. -/
def bytesAt (mem : Nat → Nat) (address n : Nat) : List Nat :=
  (List.range n).map fun i => mem (address + i)

/-- The bytes of the nul-terminated string of length `L` at `address`
(the `L` non-nul bytes followed by the nul). -/
def stringBytesAt (mem : Nat → Nat) (address L : Nat) : List Nat :=
  (List.range (L + 1)).map fun i => mem (address + i)

/-- A raw bit of the bitfield, at the byte and bit position the code's
index arithmetic selects. -/
def bitSet (field : List Nat) (bit : Nat) : Prop :=
  (field.getD ((bit >>> 3) &&& array_mask) 0).testBit (bit &&& 7) = true

/-- The per-mapping step of the bitfield construction fold. -/
def couldHitStep (field : List Nat) (mapping : MappingInfo) : List Nat :=
  if !mapping.executable then field
  else
    setBitRange field (mapping.start_address >>> shift)
      ((mapping.start_address + mapping.size) >>> shift)

/-- Two mappings whose unbiased kernel ranges share no address. -/
def sysDisjoint (a b : MappingInfo) : Prop :=
  ∀ x : Nat, ¬(inSystemRange a x ∧ inSystemRange b x)

/-- Two mappings whose biased ranges share no address. -/
def biasedDisjoint (a b : MappingInfo) : Prop :=
  ∀ x : Nat, ¬(inBiasedRange a x ∧ inBiasedRange b x)

/-! # Theorems -/

/-! ## Generic helper lemmas -/

theorem and_shiftLeft_ne_zero (x j : Nat) :
    (x &&& (1 <<< j) ≠ 0) ↔ x.testBit j = true := by
  rw [Nat.shiftLeft_eq, Nat.one_mul, Nat.and_two_pow]
  cases h : x.testBit j <;> simp [h, (Nat.two_pow_pos j).ne']

theorem getD_replicate_of_lt {n a i : Nat} (h : i < n) :
    (List.replicate n a).getD i 0 = a := by
  simp [List.getD_eq_getElem?_getD, List.getElem?_replicate, h]

theorem getD_set_self (l : List Nat) (i v : Nat) (h : i < l.length) :
    (l.set i v).getD i 0 = v := by
  rw [List.getD_eq_getElem?_getD, List.getElem?_set_self', List.getElem?_eq_getElem h]
  rfl

theorem getD_set_ne (l : List Nat) (i j v : Nat) (h : i ≠ j) :
    (l.set i v).getD j 0 = l.getD j 0 := by
  rw [List.getD_eq_getElem?_getD, List.getElem?_set_ne h, ← List.getD_eq_getElem?_getD]

theorem bitfieldHit_iff (field : List Nat) (bit : Nat) :
    bitfieldHit field bit = true ↔ bitSet field bit := by
  simp only [bitfieldHit, decide_eq_true_eq, bitSet]
  exact and_shiftLeft_ne_zero _ _

theorem array_mask_eq : array_mask = 255 := rfl

theorem array_size_eq : array_size = 256 := rfl

theorem setBit_length (field : List Nat) (bit : Nat) :
    (setBit field bit).length = field.length := by
  simp [setBit]

theorem setBit_pres {field : List Nat} {b' : Nat} (h : bitSet field b') (b : Nat) :
    bitSet (setBit field b) b' := by
  unfold bitSet setBit at *
  by_cases hii : (b >>> 3) &&& array_mask = (b' >>> 3) &&& array_mask
  · by_cases hlt : (b >>> 3) &&& array_mask < field.length
    · rw [hii] at hlt ⊢
      rw [getD_set_self _ _ _ hlt, Nat.testBit_or, h]
      simp
    · rw [List.set_eq_of_length_le (by omega)]
      exact h
  · rw [getD_set_ne _ _ _ _ hii]
    exact h

theorem setBit_sets {field : List Nat} (hlen : field.length = array_size) (b : Nat) :
    bitSet (setBit field b) b := by
  unfold bitSet setBit
  have hidx : (b >>> 3) &&& array_mask < field.length := by
    rw [hlen, array_size_eq, array_mask_eq]
    have := Nat.and_le_right (n := b >>> 3) (m := 255)
    omega
  rw [getD_set_self _ _ _ hidx, Nat.testBit_or, Nat.shiftLeft_eq, Nat.one_mul,
    Nat.testBit_two_pow_self]
  simp

theorem setBitRange_length (n : Nat) :
    ∀ (field : List Nat) (b e : Nat), e + 1 - b ≤ n →
      (setBitRange field b e).length = field.length := by
  induction n with
  | zero =>
    intro field b e hfuel
    rw [setBitRange]
    have hbe : ¬ b ≤ e := by omega
    simp [hbe]
  | succ n ih =>
    intro field b e hfuel
    rw [setBitRange]
    by_cases hbe : b ≤ e
    · simp only [hbe, if_true]
      rw [ih _ _ _ (by omega), setBit_length]
    · simp [hbe]

theorem setBitRange_pres (n : Nat) :
    ∀ (field : List Nat) (b e : Nat), e + 1 - b ≤ n → ∀ {b' : Nat}, bitSet field b' →
      bitSet (setBitRange field b e) b' := by
  induction n with
  | zero =>
    intro field b e hfuel b' h
    rw [setBitRange]
    have hbe : ¬ b ≤ e := by omega
    simp [hbe, h]
  | succ n ih =>
    intro field b e hfuel b' h
    rw [setBitRange]
    by_cases hbe : b ≤ e
    · simp only [hbe, if_true]
      exact ih _ _ _ (by omega) (setBit_pres h b)
    · simp [hbe, h]

theorem setBitRange_sets (n : Nat) :
    ∀ (field : List Nat) (b e : Nat), e + 1 - b ≤ n → field.length = array_size →
      ∀ {t : Nat}, b ≤ t → t ≤ e → bitSet (setBitRange field b e) t := by
  induction n with
  | zero =>
    intro field b e hfuel _ t hbt hte
    omega
  | succ n ih =>
    intro field b e hfuel hlen t hbt hte
    rw [setBitRange]
    have hbe : b ≤ e := by omega
    simp only [hbe, if_true]
    rcases Nat.eq_or_lt_of_le hbt with heq | hlt
    · subst heq
      exact setBitRange_pres (e + 1 - (b + 1)) _ _ _ (le_refl _) (setBit_sets hlen b)
    · exact ih _ _ _ (by omega) (by rw [setBit_length, hlen]) hlt hte

theorem could_hit_mapping_eq_foldl (mappings : List MappingInfo) :
    could_hit_mapping mappings =
      mappings.foldl couldHitStep (List.replicate array_size 0) := rfl

theorem couldHitStep_length (field : List Nat) (m : MappingInfo) :
    (couldHitStep field m).length = field.length := by
  unfold couldHitStep
  by_cases hex : m.executable <;>
    simp [hex, setBitRange_length (((m.start_address + m.size) >>> shift) + 1 -
      (m.start_address >>> shift)) _ _ _ (le_refl _)]

theorem couldHitStep_pres {field : List Nat} {b : Nat} (h : bitSet field b)
    (m : MappingInfo) : bitSet (couldHitStep field m) b := by
  unfold couldHitStep
  by_cases hex : m.executable
  · simp only [hex, Bool.not_true, Bool.false_eq_true, if_false]
    exact setBitRange_pres _ _ _ _ (le_refl _) h
  · simp [hex, h]

theorem foldl_couldHitStep_pres {b : Nat} :
    ∀ (ms : List MappingInfo) (field : List Nat), bitSet field b →
      bitSet (ms.foldl couldHitStep field) b := by
  intro ms
  induction ms with
  | nil => intro field h; exact h
  | cons m ms ih =>
    intro field h
    exact ih _ (couldHitStep_pres h m)

theorem shiftRight_le_shiftRight {a b : Nat} (h : a ≤ b) (k : Nat) :
    a >>> k ≤ b >>> k := by
  simp only [Nat.shiftRight_eq_div_pow]
  exact Nat.div_le_div_right h

/-- Soundness of the bitfield construction: the bit probed for any
address inside the biased range of an executable mapping was set. -/
theorem could_hit_mapping_sound {mappings : List MappingInfo} {m : MappingInfo}
    (hm : m ∈ mappings) (hex : m.executable = true) {addr : Nat}
    (haddr : inBiasedRange m addr) :
    bitSet (could_hit_mapping mappings) (addr >>> shift) := by
  rw [could_hit_mapping_eq_foldl]
  have key : ∀ (ms : List MappingInfo) (field : List Nat), field.length = array_size →
      m ∈ ms → bitSet (ms.foldl couldHitStep field) (addr >>> shift) := by
    intro ms
    induction ms with
    | nil => intro field _ hmem; cases hmem
    | cons a as ih =>
      intro field hlen hmem
      rcases List.mem_cons.mp hmem with heq | htail
      · subst heq
        simp only [List.foldl_cons]
        apply foldl_couldHitStep_pres
        unfold couldHitStep
        simp only [hex, Bool.not_true, Bool.false_eq_true, if_false]
        apply setBitRange_sets _ _ _ _ (le_refl _) hlen
        · exact shiftRight_le_shiftRight haddr.1 shift
        · exact shiftRight_le_shiftRight (Nat.le_of_lt haddr.2) shift
      · simp only [List.foldl_cons]
        exact ih _ (by rw [couldHitStep_length, hlen]) htail
  exact key mappings _ (by simp [array_size]) hm

/-! ## Mapping lookup lemmas -/

theorem sysDisjoint_symmetric : Symmetric sysDisjoint := by
  intro a b h x hx
  exact h x ⟨hx.2, hx.1⟩

theorem find_mapping_pred_iff (m : MappingInfo) (x : Nat) :
    (decide (x ≥ m.start_address) && decide (x - m.start_address < m.size)) = true ↔
      inBiasedRange m x := by
  simp only [Bool.and_eq_true, decide_eq_true_eq, inBiasedRange, ge_iff_le]
  omega

theorem find_mapping_no_bias_pred_iff (m : MappingInfo) (x : Nat) :
    (decide (x ≥ m.system_mapping_info.start_address) &&
      decide (x < m.system_mapping_info.end_address)) = true ↔ inSystemRange m x := by
  simp only [Bool.and_eq_true, decide_eq_true_eq, inSystemRange, ge_iff_le]

theorem find_mapping_no_bias_some {mappings : List MappingInfo} {x : Nat}
    {m : MappingInfo} (h : find_mapping_no_bias mappings x = some m) :
    m ∈ mappings ∧ inSystemRange m x := by
  refine ⟨List.mem_of_find?_eq_some h, ?_⟩
  have := List.find?_some h
  exact (find_mapping_no_bias_pred_iff m x).mp this

theorem find_mapping_no_bias_none {mappings : List MappingInfo} {x : Nat}
    (h : find_mapping_no_bias mappings x = none) :
    ∀ m ∈ mappings, ¬ inSystemRange m x := by
  intro m hm
  have := List.find?_eq_none.mp h m hm
  intro hx
  exact this ((find_mapping_no_bias_pred_iff m x).mpr hx)

theorem contains_address_iff (m : MappingInfo) (x : Nat) :
    m.contains_address x = true ↔ inSystemRange m x := by
  simp [MappingInfo.contains_address, inSystemRange]

/-! ## Sanitizer step analysis -/

theorem sanitizeStep_keep_cases {mappings : List MappingInfo}
    {stack_mapping last_hit : Option MappingInfo} {field : List Nat} {addr : Nat}
    (h : (sanitizeStep mappings stack_mapping field last_hit addr).1 = false) :
    (addr ≤ 4096 ∧ toSigned addr ≥ -4096) ∨
    (stack_mapping.map (·.contains_address addr)).getD false = true ∨
    (last_hit.map (·.contains_address addr)).getD false = true ∨
    ∃ hit, find_mapping_no_bias mappings addr = some hit ∧ hit.executable = true := by
  unfold sanitizeStep at h
  split at h
  case isTrue h1 => exact Or.inl h1
  case isFalse h1 =>
    split at h
    case isTrue h2 => exact Or.inr (Or.inl h2)
    case isFalse h2 =>
      split at h
      case isTrue h3 => exact Or.inr (Or.inr (Or.inl h3))
      case isFalse h3 =>
        split at h
        case isTrue h4 =>
          split at h
          case h_1 hit hfind =>
            split at h
            case isTrue h5 => exact Or.inr (Or.inr (Or.inr ⟨hit, hfind, h5⟩))
            case isFalse h5 => simp at h
          case h_2 hfind => simp at h
        case isFalse h4 => simp at h

theorem sanitizeStep_deface_cases {mappings : List MappingInfo}
    {stack_mapping last_hit : Option MappingInfo} {field : List Nat} {addr : Nat}
    (h : (sanitizeStep mappings stack_mapping field last_hit addr).1 = true) :
    bitfieldHit field (addr >>> shift) = false ∨
    find_mapping_no_bias mappings addr = none ∨
    ∃ hit, find_mapping_no_bias mappings addr = some hit ∧ hit.executable = false := by
  unfold sanitizeStep at h
  split at h
  case isTrue h1 => simp at h
  case isFalse h1 =>
    split at h
    case isTrue h2 => simp at h
    case isFalse h2 =>
      split at h
      case isTrue h3 => simp at h
      case isFalse h3 =>
        split at h
        case isTrue h4 =>
          split at h
          case h_1 hit hfind =>
            split at h
            case isTrue h5 => simp at h
            case isFalse h5 =>
              exact Or.inr (Or.inr ⟨hit, hfind, by simpa using h5⟩)
          case h_2 hfind => exact Or.inr (Or.inl hfind)
        case isFalse h4 => exact Or.inl (by simpa using h4)

/-- The trace entry at index `i` records the deface decision the step
function takes on the word at index `i`, with the recorded last-hit
cache as its input. -/
theorem sanitizeTrace_spec (mappings : List MappingInfo)
    (stack_mapping : Option MappingInfo) (field : List Nat) :
    ∀ (words : List Nat) (lh0 : Option MappingInfo) (i : Nat) (dec : Bool)
      (lh : Option MappingInfo) (w : Nat),
      words[i]? = some w →
      (sanitizeTrace mappings stack_mapping field lh0 words)[i]? = some (dec, lh) →
      dec = (sanitizeStep mappings stack_mapping field lh w).1 := by
  intro words
  induction words with
  | nil => intro lh0 i dec lh w hw _; simp at hw
  | cons w0 ws ih =>
    intro lh0 i dec lh w hw ht
    cases i with
    | zero =>
      simp only [List.getElem?_cons_zero, Option.some_inj] at hw
      unfold sanitizeTrace at ht
      simp only [List.getElem?_cons_zero, Option.some_inj, Prod.mk.injEq] at ht
      rw [← hw, ← ht.1, ht.2]
    | succ i =>
      simp only [List.getElem?_cons_succ] at hw
      unfold sanitizeTrace at ht
      simp only [List.getElem?_cons_succ] at ht
      exact ih _ _ _ _ _ hw ht

/-- C1. Stack sanitizer soundness: in every run of the per-word loop of
`sanitize_stack_copy` (stack mapping and bitfield as the routine
computes them, last-hit cache starting empty), a word overwritten with
the sentinel is contained in no executable mapping of the enumerator,
and a preserved word whose signed magnitude exceeds 4096 lies in the
stack's own mapping, in the last-hit mapping as cached when the word was
examined, or in some executable mapping. Hypotheses: each mapping's
biased range is contained in its unbiased kernel range (the spec's bias
invariant) and the kernel ranges are pairwise disjoint. -/
theorem sanitize_stack_copy_soundness (mappings : List MappingInfo)
    (stack_pointer : Nat) (words : List Nat)
    (hsub : ∀ m ∈ mappings, ∀ x : Nat, inBiasedRange m x → inSystemRange m x)
    (hdisj : mappings.Pairwise sysDisjoint)
    (i : Nat) (dec : Bool) (lh : Option MappingInfo) (w : Nat)
    (hw : words[i]? = some w)
    (ht : (sanitizeTrace mappings (find_mapping_no_bias mappings stack_pointer)
        (could_hit_mapping mappings) none words)[i]? = some (dec, lh)) :
    (dec = true → ∀ m ∈ mappings, m.executable = true → ¬ inBiasedRange m w) ∧
    (dec = false → 4096 < (toSigned w).natAbs →
      (∃ sm, find_mapping_no_bias mappings stack_pointer = some sm ∧
        sm.contains_address w = true) ∨
      (∃ lhm, lh = some lhm ∧ lhm.contains_address w = true) ∨
      ∃ m ∈ mappings, m.executable = true ∧ inSystemRange m w) := by
  have hdec := sanitizeTrace_spec mappings _ _ words none i dec lh w hw ht
  constructor
  · intro hdef m hm hex hb
    rw [hdef] at hdec
    rcases sanitizeStep_deface_cases hdec.symm with hbf | hnone | ⟨hit, hfind, hnex⟩
    · have := (bitfieldHit_iff _ _).mpr (could_hit_mapping_sound hm hex hb)
      rw [this] at hbf
      exact Bool.noConfusion hbf
    · exact find_mapping_no_bias_none hnone m hm (hsub m hm w hb)
    · obtain ⟨hmem, hsys⟩ := find_mapping_no_bias_some hfind
      by_cases heq : hit = m
      · subst heq
        rw [hex] at hnex
        exact Bool.noConfusion hnex
      · exact List.Pairwise.forall sysDisjoint_symmetric hdisj hmem hm heq w
          ⟨hsys, hsub m hm w hb⟩
  · intro hkeep hmag
    rw [hkeep] at hdec
    rcases sanitizeStep_keep_cases hdec.symm with hsmall | hstack | hlast | ⟨hit, hfind, hex⟩
    · exfalso
      have hlt : w < 2 ^ 63 := by
        have := hsmall.1
        omega
      have hsig : toSigned w = (w : Int) := by
        unfold toSigned
        rw [if_pos hlt]
      rw [hsig, Int.natAbs_ofNat] at hmag
      omega
    · left
      cases hsm : find_mapping_no_bias mappings stack_pointer with
      | none => rw [hsm] at hstack; exact Bool.noConfusion hstack
      | some s =>
        rw [hsm] at hstack
        simp only [Option.map_some', Option.getD_some] at hstack
        exact ⟨s, rfl, hstack⟩
    · right; left
      cases hlh : lh with
      | none => rw [hlh] at hlast; exact Bool.noConfusion hlast
      | some lhm =>
        rw [hlh] at hlast
        simp only [Option.map_some', Option.getD_some] at hlast
        exact ⟨lhm, rfl, hlast⟩
    · right; right
      obtain ⟨hmem, hsys⟩ := find_mapping_no_bias_some hfind
      exact ⟨hit, hmem, hex, hsys⟩

/-- Witness for C1 at a concrete input: one non-executable stack
mapping, a stack pointer inside it, and one stack word pointing into it
(kept via the stack-mapping rule). -/
theorem sanitize_stack_copy_soundness_witness :
    (∀ m ∈ [(⟨0x7f0000, 0x1000, 0, false, ⟨0x7f0000, 0x7f1000⟩⟩ : MappingInfo)],
      ∀ x : Nat, inBiasedRange m x → inSystemRange m x) ∧
    ([(⟨0x7f0000, 0x1000, 0, false, ⟨0x7f0000, 0x7f1000⟩⟩ : MappingInfo)].Pairwise sysDisjoint) ∧
    (([0x7f0810] : List Nat)[0]? = some 0x7f0810) ∧
    ((sanitizeTrace [(⟨0x7f0000, 0x1000, 0, false, ⟨0x7f0000, 0x7f1000⟩⟩ : MappingInfo)]
        (find_mapping_no_bias [(⟨0x7f0000, 0x1000, 0, false, ⟨0x7f0000, 0x7f1000⟩⟩ : MappingInfo)]
          0x7f0800)
        (could_hit_mapping [(⟨0x7f0000, 0x1000, 0, false, ⟨0x7f0000, 0x7f1000⟩⟩ : MappingInfo)])
        none [0x7f0810])[0]? = some (false, none)) ∧
    ((false = true → ∀ m ∈ [(⟨0x7f0000, 0x1000, 0, false, ⟨0x7f0000, 0x7f1000⟩⟩ : MappingInfo)],
        m.executable = true → ¬ inBiasedRange m 0x7f0810) ∧
      (false = false → 4096 < (toSigned 0x7f0810).natAbs →
        (∃ sm, find_mapping_no_bias
            [(⟨0x7f0000, 0x1000, 0, false, ⟨0x7f0000, 0x7f1000⟩⟩ : MappingInfo)] 0x7f0800 =
            some sm ∧ sm.contains_address 0x7f0810 = true) ∨
        (∃ lhm, (none : Option MappingInfo) = some lhm ∧ lhm.contains_address 0x7f0810 = true) ∨
        ∃ m ∈ [(⟨0x7f0000, 0x1000, 0, false, ⟨0x7f0000, 0x7f1000⟩⟩ : MappingInfo)],
          m.executable = true ∧ inSystemRange m 0x7f0810)) := by
  have h1 : ∀ m ∈ [(⟨0x7f0000, 0x1000, 0, false, ⟨0x7f0000, 0x7f1000⟩⟩ : MappingInfo)],
      ∀ x : Nat, inBiasedRange m x → inSystemRange m x := by
    intro m hm x hx
    rw [List.mem_singleton] at hm
    subst hm
    simp only [inBiasedRange, inSystemRange] at *
    omega
  have h2 : ([(⟨0x7f0000, 0x1000, 0, false, ⟨0x7f0000, 0x7f1000⟩⟩ : MappingInfo)].Pairwise
      sysDisjoint) := List.pairwise_singleton _ _
  have h3 : (([0x7f0810] : List Nat)[0]? = some 0x7f0810) := rfl
  have h4 : ((sanitizeTrace [(⟨0x7f0000, 0x1000, 0, false, ⟨0x7f0000, 0x7f1000⟩⟩ : MappingInfo)]
      (find_mapping_no_bias [(⟨0x7f0000, 0x1000, 0, false, ⟨0x7f0000, 0x7f1000⟩⟩ : MappingInfo)]
        0x7f0800)
      (could_hit_mapping [(⟨0x7f0000, 0x1000, 0, false, ⟨0x7f0000, 0x7f1000⟩⟩ : MappingInfo)])
      none [0x7f0810])[0]? = some (false, none)) := by decide
  exact ⟨h1, h2, h3, h4,
    sanitize_stack_copy_soundness _ 0x7f0800 _ h1 h2 0 false none 0x7f0810 h3 h4⟩

/-- C3. The small-integer rule compares the unsigned value: the word
with all bits set (value `-1` as a signed integer, magnitude 1) fails
the test `addr <= 4096` and is overwritten with the sentinel, although
the claim requires every word of signed magnitude at most 4096
(including `-1` through `-4096`) to be kept. Evaluation of the embedded
loop at the failing input (no mappings, so no other rule keeps it). -/
theorem small_int_negative_word_defaced :
    toSigned (2 ^ 64 - 1) = -1 ∧
    sanitizeWords [] none (could_hit_mapping []) none [2 ^ 64 - 1] = [defacedVal] ∧
    defacedVal ≠ 2 ^ 64 - 1 := by decide

/-- C8. Mapping lookup: for every mapping `M` held by the enumerator and
every address `x` in `[M.start_address, M.start_address + M.size)`,
`find_mapping x` returns `M`, provided the biased ranges of the
enumerator's mappings are pairwise disjoint. -/
theorem find_mapping_complete (mappings : List MappingInfo) (M : MappingInfo) (x : Nat)
    (hdisj : mappings.Pairwise biasedDisjoint) (hM : M ∈ mappings)
    (hx : M.start_address ≤ x ∧ x < M.start_address + M.size) :
    find_mapping mappings x = some M := by
  induction mappings with
  | nil => cases hM
  | cons a l ih =>
    rw [List.pairwise_cons] at hdisj
    rcases List.mem_cons.mp hM with heq | htail
    · subst heq
      unfold find_mapping
      rw [List.find?_cons_of_pos]
      exact (find_mapping_pred_iff M x).mpr hx
    · have hpa : ¬ (decide (x ≥ a.start_address) && decide (x - a.start_address < a.size)) = true := by
        intro hpa
        exact hdisj.1 M htail x ⟨(find_mapping_pred_iff a x).mp hpa, hx⟩
      unfold find_mapping
      rw [List.find?_cons_of_neg]
      · exact ih hdisj.2 htail
      · exact hpa

/-- Witness for C8 at a concrete input: two disjoint mappings and an
address inside the second one. -/
theorem find_mapping_complete_witness :
    ([(⟨0x1000, 0x1000, 0, true, ⟨0x1000, 0x2000⟩⟩ : MappingInfo),
      ⟨0x5000, 0x1000, 0, false, ⟨0x5000, 0x6000⟩⟩].Pairwise biasedDisjoint) ∧
    ((⟨0x5000, 0x1000, 0, false, ⟨0x5000, 0x6000⟩⟩ : MappingInfo) ∈
      [(⟨0x1000, 0x1000, 0, true, ⟨0x1000, 0x2000⟩⟩ : MappingInfo),
       ⟨0x5000, 0x1000, 0, false, ⟨0x5000, 0x6000⟩⟩]) ∧
    ((0x5000 : Nat) ≤ 0x5800 ∧ (0x5800 : Nat) < 0x5000 + 0x1000) ∧
    find_mapping
      [(⟨0x1000, 0x1000, 0, true, ⟨0x1000, 0x2000⟩⟩ : MappingInfo),
       ⟨0x5000, 0x1000, 0, false, ⟨0x5000, 0x6000⟩⟩] 0x5800 =
      some ⟨0x5000, 0x1000, 0, false, ⟨0x5000, 0x6000⟩⟩ := by
  have hdisj : ([(⟨0x1000, 0x1000, 0, true, ⟨0x1000, 0x2000⟩⟩ : MappingInfo),
      ⟨0x5000, 0x1000, 0, false, ⟨0x5000, 0x6000⟩⟩].Pairwise biasedDisjoint) := by
    refine List.Pairwise.cons ?_ (List.pairwise_singleton _ _)
    intro b hb
    rw [List.mem_singleton] at hb
    subst hb
    intro y hy
    simp only [inBiasedRange] at hy
    omega
  have hM : (⟨0x5000, 0x1000, 0, false, ⟨0x5000, 0x6000⟩⟩ : MappingInfo) ∈
      [(⟨0x1000, 0x1000, 0, true, ⟨0x1000, 0x2000⟩⟩ : MappingInfo),
       ⟨0x5000, 0x1000, 0, false, ⟨0x5000, 0x6000⟩⟩] := by simp
  have hx : (0x5000 : Nat) ≤ 0x5800 ∧ (0x5800 : Nat) < 0x5000 + 0x1000 := by omega
  exact ⟨hdisj, hM, hx, find_mapping_complete _ _ _ hdisj hM hx⟩

/-- C10. The bounds guard of `get_thread_info_by_index` tests
`index > threads.len()` instead of `index >= threads.len()`: at
`index = threads.len()` the guard passes and the vector indexing
`self.threads[index]` panics instead of the function returning an
error. Evaluation at the failing inputs (and, for contrast, an index
strictly above the length, which does take the error return). -/
theorem get_thread_info_index_eq_len_panics :
    get_thread_info_by_index [] 0 = ThreadInfoResult.panic ∧
    get_thread_info_by_index [101, 102] 2 = ThreadInfoResult.panic ∧
    get_thread_info_by_index [101, 102] 3 = ThreadInfoResult.err := by decide

/-! ## ELF fallback identity lemmas -/

theorem readTextByte_aa {mem : List Nat} {so ss : Nat} (hss : 4096 ≤ ss)
    (hlen : so + 4096 ≤ mem.length) (hmem : ∀ i, i < 4096 → mem.getD (so + i) 0 = 170)
    {i : Nat} (hi : i < 4096) : readTextByte mem so ss i = .ok 170 := by
  unfold readTextByte
  rw [if_pos ⟨by omega, by omega⟩, hmem i hi]

theorem getD_replicate_append (j k c x : Nat) (hk : 0 < k) :
    (List.replicate j x ++ List.replicate k c).getD j 0 = c := by
  rw [List.getD_append_right _ _ _ _ (by simp)]
  simp [List.getD_eq_getElem?_getD, List.getElem?_replicate, hk]

theorem set_replicate_append (j k c x y : Nat) (hk : 0 < k) :
    (List.replicate j x ++ List.replicate k c).set j y =
      List.replicate j x ++ y :: List.replicate (k - 1) c := by
  rw [List.set_append_right _ _ (by simp)]
  congr 1
  simp only [List.length_replicate, Nat.sub_self]
  cases k with
  | zero => omega
  | succ k => simp [List.replicate_succ]

theorem replicate_append_cons (j m x c : Nat) :
    List.replicate j x ++ x :: List.replicate m c =
      List.replicate (j + 1) x ++ List.replicate m c := by
  rw [List.replicate_succ', List.append_assoc]
  simp

theorem xorBlockLoop_aa {mem : List Nat} {so ss : Nat} (offset : Nat)
    (hss : 4096 ≤ ss) (hlen : so + 4096 ≤ mem.length)
    (hmem : ∀ i, i < 4096 → mem.getD (so + i) 0 = 170)
    (hoff : offset + 16 ≤ 4096) (c : Nat) :
    ∀ (n j : Nat), j + n = MDGUID_SIZE →
      xorBlockLoop mem so ss
        (List.replicate j (c ^^^ 170) ++ List.replicate (MDGUID_SIZE - j) c) offset j =
        .ok (List.replicate MDGUID_SIZE (c ^^^ 170)) := by
  intro n
  induction n with
  | zero =>
    intro j hj
    rw [xorBlockLoop]
    have hnj : ¬ j < MDGUID_SIZE := by omega
    rw [if_neg hnj]
    have hj16 : j = MDGUID_SIZE := by omega
    subst hj16
    simp
  | succ n ih =>
    intro j hj
    rw [xorBlockLoop]
    have hjlt : j < MDGUID_SIZE := by
      simp only [MDGUID_SIZE] at *
      omega
    rw [if_pos hjlt]
    have hread : readTextByte mem so ss (offset + j) = .ok 170 :=
      readTextByte_aa hss hlen hmem (by simp only [MDGUID_SIZE] at *; omega)
    rw [hread]
    have hkpos : 0 < MDGUID_SIZE - j := by omega
    have hgetD : (List.replicate j (c ^^^ 170) ++
        List.replicate (MDGUID_SIZE - j) c).getD j 0 = c :=
      getD_replicate_append j (MDGUID_SIZE - j) c (c ^^^ 170) hkpos
    show xorBlockLoop mem so ss
        ((List.replicate j (c ^^^ 170) ++ List.replicate (MDGUID_SIZE - j) c).set j
          (((List.replicate j (c ^^^ 170) ++
            List.replicate (MDGUID_SIZE - j) c).getD j 0) ^^^ 170)) offset (j + 1) = _
    rw [hgetD, set_replicate_append j (MDGUID_SIZE - j) c (c ^^^ 170) (c ^^^ 170) hkpos,
      replicate_append_cons, Nat.sub_sub]
    exact ih (j + 1) (by omega)

theorem xorBlockLoop_aa_start {mem : List Nat} {so ss : Nat} (offset : Nat)
    (hss : 4096 ≤ ss) (hlen : so + 4096 ≤ mem.length)
    (hmem : ∀ i, i < 4096 → mem.getD (so + i) 0 = 170)
    (hoff : offset + 16 ≤ 4096) (c : Nat) :
    xorBlockLoop mem so ss (List.replicate MDGUID_SIZE c) offset 0 =
      .ok (List.replicate MDGUID_SIZE (c ^^^ 170)) := by
  have := xorBlockLoop_aa offset hss hlen hmem hoff c MDGUID_SIZE 0 (by simp)
  simpa using this

theorem xorFoldLoop_aa {mem : List Nat} {so ss : Nat}
    (hss : 4096 ≤ ss) (hlen : so + 4096 ≤ mem.length)
    (hmem : ∀ i, i < 4096 → mem.getD (so + i) 0 = 170) :
    ∀ (n offset c : Nat), offset + 32 * n = 4096 →
      xorFoldLoop mem so ss (List.replicate MDGUID_SIZE c) offset =
        .ok (List.replicate MDGUID_SIZE c) := by
  intro n
  induction n with
  | zero =>
    intro offset c hoff
    rw [xorFoldLoop]
    have : ¬ offset < 4096 := by omega
    rw [if_neg this]
  | succ n ih =>
    intro offset c hoff
    rw [xorFoldLoop]
    have h1 : offset < 4096 := by omega
    rw [if_pos h1,
      xorBlockLoop_aa_start offset hss hlen hmem (by omega) c]
    show xorFoldLoop mem so ss (List.replicate MDGUID_SIZE (c ^^^ 170))
        (offset + MDGUID_SIZE) = _
    rw [xorFoldLoop]
    have h2 : offset + MDGUID_SIZE < 4096 := by
      simp only [MDGUID_SIZE]
      omega
    rw [if_pos h2,
      xorBlockLoop_aa_start (offset + MDGUID_SIZE) hss hlen hmem
        (by simp only [MDGUID_SIZE]; omega) (c ^^^ 170)]
    show xorFoldLoop mem so ss (List.replicate MDGUID_SIZE ((c ^^^ 170) ^^^ 170))
        (offset + MDGUID_SIZE + MDGUID_SIZE) = _
    rw [Nat.xor_assoc, Nat.xor_self, Nat.xor_zero]
    have harith : offset + MDGUID_SIZE + MDGUID_SIZE + 32 * n = 4096 := by
      simp only [MDGUID_SIZE]
      omega
    exact ih (offset + MDGUID_SIZE + MDGUID_SIZE) c harith

theorem elf_fallback_scan (mem : List Nat) (post : List SectionHeader) (s : SectionHeader)
    (hs : isTextCandidate s = true) :
    ∀ (pre : List SectionHeader), (∀ t ∈ pre, isTextCandidate t = false) →
      elf_file_identifier_fallback (pre ++ s :: post) mem =
        xorFoldLoop mem s.sh_offset s.sh_size (List.replicate MDGUID_SIZE 0) 0 := by
  have hsc : (s.sh_type = SHT_PROGBITS ∧ s.sh_flags &&& SHF_ALLOC ≠ 0) ∧
      s.sh_flags &&& SHF_EXECINSTR ≠ 0 := by
    simpa [isTextCandidate] using hs
  intro pre
  induction pre with
  | nil =>
    intro _
    show elf_file_identifier_fallback (s :: post) mem = _
    unfold elf_file_identifier_fallback
    rw [if_neg (by simp [hsc.1.1]), if_pos hsc.1.2, if_pos hsc.2]
  | cons t ts ih =>
    intro hpre
    have hts : ∀ u ∈ ts, isTextCandidate u = false := fun u hu =>
      hpre u (List.mem_cons.mpr (Or.inr hu))
    have ht : isTextCandidate t = false := hpre t (List.mem_cons_self t ts)
    rw [List.cons_append]
    unfold elf_file_identifier_fallback
    by_cases h1 : t.sh_type = SHT_PROGBITS
    · by_cases h2 : t.sh_flags &&& SHF_ALLOC ≠ 0
      · by_cases h3 : t.sh_flags &&& SHF_EXECINSTR ≠ 0
        · exfalso
          have : isTextCandidate t = true := by
            simp [isTextCandidate, h1, h2, h3]
          rw [this] at ht
          exact Bool.noConfusion ht
        · rw [if_neg (by simp [h1]), if_pos h2, if_neg h3]
          exact ih hts
      · rw [if_neg (by simp [h1]), if_neg h2]
        exact ih hts
    · rw [if_pos h1]
      exact ih hts

/-- C4 counterexample. For an ELF whose single (hence first) allocated
executable progbits section starts at offset 0 with 4096 bytes all equal
to `0xAA` (170), the fallback returns the XOR-fold of the 256 16-byte
blocks of that page, which is sixteen `0x00` bytes: XOR-ing 170 an even
number of times cancels. The claim's stated value, sixteen `0xAA`
bytes, is therefore wrong. -/
theorem elf_fallback_xor_aa_cex :
    elf_file_identifier_fallback [⟨SHT_PROGBITS, 6, 0, 4096⟩] (List.replicate 4096 170) =
      .ok (List.replicate 16 0) ∧
    List.replicate 16 (0 : Nat) ≠ List.replicate 16 (170 : Nat) := by
  constructor
  · have hmem : ∀ i, i < 4096 → (List.replicate 4096 170).getD (0 + i) 0 = 170 := by
      intro i hi
      rw [Nat.zero_add]
      exact getD_replicate_of_lt hi
    have hscan := elf_fallback_scan (List.replicate 4096 170) []
      ⟨SHT_PROGBITS, 6, 0, 4096⟩ (by decide) [] (by simp)
    rw [List.nil_append] at hscan
    rw [hscan]
    show xorFoldLoop (List.replicate 4096 170) 0 4096 (List.replicate MDGUID_SIZE 0) 0 =
      .ok (List.replicate 16 0)
    exact xorFoldLoop_aa (by omega) (by rw [List.length_replicate]) hmem 128 0 0 (by omega)
  · decide

/-- C4 (amended). ELF fallback identity: when the first allocated
executable progbits section of the image covers at least 4096 readable
bytes all equal to `0xAA`, `elf_file_identifier_from_mapped_file`
returns the XOR-fold of the 256 16-byte blocks of that page, which
equals sixteen `0x00` bytes (not sixteen `0xAA` bytes as the spec
computes; an even number of XOR-s of the same byte cancels). -/
theorem elf_fallback_xor_aa_fold (sections : List SectionHeader) (mem : List Nat)
    (pre post : List SectionHeader) (s : SectionHeader)
    (hsplit : sections = pre ++ s :: post)
    (hpre : ∀ t ∈ pre, isTextCandidate t = false)
    (hs : isTextCandidate s = true)
    (hss : 4096 ≤ s.sh_size) (hlen : s.sh_offset + 4096 ≤ mem.length)
    (hmem : ∀ i, i < 4096 → mem.getD (s.sh_offset + i) 0 = 170) :
    elf_file_identifier_fallback sections mem = .ok (List.replicate 16 0) := by
  subst hsplit
  rw [elf_fallback_scan mem post s hs pre hpre]
  exact xorFoldLoop_aa hss hlen hmem 128 0 0 (by omega)

/-- Witness for the amended C4 at a concrete input. -/
theorem elf_fallback_xor_aa_fold_witness :
    (([⟨SHT_PROGBITS, 6, 0, 4096⟩] : List SectionHeader) =
      [] ++ (⟨SHT_PROGBITS, 6, 0, 4096⟩ : SectionHeader) :: []) ∧
    (∀ t ∈ ([] : List SectionHeader), isTextCandidate t = false) ∧
    isTextCandidate ⟨SHT_PROGBITS, 6, 0, 4096⟩ = true ∧
    (4096 : Nat) ≤ 4096 ∧
    (0 : Nat) + 4096 ≤ (List.replicate 4096 (170 : Nat)).length ∧
    (∀ i, i < 4096 → (List.replicate 4096 (170 : Nat)).getD (0 + i) 0 = 170) ∧
    elf_file_identifier_fallback [⟨SHT_PROGBITS, 6, 0, 4096⟩] (List.replicate 4096 170) =
      .ok (List.replicate 16 0) := by
  have h1 : ([⟨SHT_PROGBITS, 6, 0, 4096⟩] : List SectionHeader) =
      [] ++ (⟨SHT_PROGBITS, 6, 0, 4096⟩ : SectionHeader) :: [] := by simp
  have h2 : ∀ t ∈ ([] : List SectionHeader), isTextCandidate t = false := by simp
  have h3 : isTextCandidate ⟨SHT_PROGBITS, 6, 0, 4096⟩ = true := by decide
  have h4 : (4096 : Nat) ≤ 4096 := le_refl _
  have h5 : (0 : Nat) + 4096 ≤ (List.replicate 4096 (170 : Nat)).length := by
    rw [List.length_replicate]
  have h6 : ∀ i, i < 4096 → (List.replicate 4096 (170 : Nat)).getD (0 + i) 0 = 170 := by
    intro i hi
    rw [Nat.zero_add]
    exact getD_replicate_of_lt hi
  exact ⟨h1, h2, h3, h4, h5, h6,
    elf_fallback_xor_aa_fold _ _ [] [] ⟨SHT_PROGBITS, 6, 0, 4096⟩ h1 h2 h3 h4 h5 h6⟩

/-- C9. The ELF fallback uses the target-supplied `sh_offset` and
`sh_size` without checking them against the readable extent: for an
image whose first allocated executable progbits section reports
`sh_size = 0` over an empty slice, the very first read of the XOR-fold
is out of bounds (in the Rust code, `slice::from_raw_parts` past the
mapped buffer followed by an indexing panic). Evaluation of the embedded
fallback at the failing input. -/
theorem elf_fallback_unchecked_oob :
    elf_file_identifier_fallback [⟨SHT_PROGBITS, 6, 0, 0⟩] [] =
      .error "out of bounds access" := by
  show elf_file_identifier_fallback [⟨SHT_PROGBITS, 6, 0, 0⟩] [] = _
  unfold elf_file_identifier_fallback
  rw [if_neg (by decide), if_pos (by decide), if_pos (by decide)]
  rw [xorFoldLoop, if_pos (by omega), xorBlockLoop, if_pos (by decide)]
  rfl

/-! ## Dump writer ordering -/

/-- C2 counterexample. The claim says the stream body bytes are appended
and flushed to the destination sink before the corresponding directory
entry is patched, i.e. every `write_to_file` call with a directory entry
starts its sink writes with the body append. False: `write_to_file`
calls `dump_dir_entry` (which seeks to the entry slot and writes the
entry) first, and flushes the new body bytes only afterwards; at the
concrete input below the event trace is `[patch, append]`. -/
theorem dir_entry_patched_before_body_cex :
    ¬ (∀ (st : DirSectionState) (buf d : List Nat), ∃ bs rest,
        (write_to_file st buf (some d)).2.2 = SinkEvent.append bs :: rest) := by
  intro hclaim
  obtain ⟨bs, rest, h⟩ := hclaim ⟨0, 0, 0, 0⟩ (List.replicate 12 0) (List.replicate 12 1)
  have hev : (write_to_file ⟨0, 0, 0, 0⟩ (List.replicate 12 0)
      (some (List.replicate 12 1))).2.2 =
      [SinkEvent.patch 0 (List.replicate 12 1), SinkEvent.append (List.replicate 12 1)] := by
    decide
  rw [hev] at h
  simp at h

/-- C2 (amended). For every `write_to_file` call carrying a directory
entry, the sink sees exactly two writes, in this order: first the patch
of the entry into its directory slot, then the append of every dump
buffer byte added since the last flush; after the call the flush cursor
equals the buffer length, so both the entry and the body are in the sink
once the call returns. (The claim's order is reversed: a crash between
the two writes leaves a patched directory entry whose stream body was
never flushed.) -/
theorem write_to_file_entry_then_body (st : DirSectionState) (buf d : List Nat) :
    (write_to_file st buf (some d)).2.2 =
      [SinkEvent.patch (st.destination_start_offset +
          (st.section_rva + st.curr_idx * dirEntrySize))
        (((writeAt buf (st.section_rva + st.curr_idx * dirEntrySize) d).drop
          (st.section_rva + st.curr_idx * dirEntrySize)).take dirEntrySize),
       SinkEvent.append ((writeAt buf (st.section_rva + st.curr_idx * dirEntrySize) d).drop
          st.last_position_written_to_file)] ∧
    (write_to_file st buf (some d)).1.last_position_written_to_file =
      (write_to_file st buf (some d)).2.1.length := by
  exact ⟨rfl, rfl⟩

/-! ## Dump driver abort -/

/-- C6. Whenever `skip_stacks_if_mapping_unreferenced` is set,
`MinidumpWriter::dump` returns an error for every environment (every
outcome of dumper creation, thread suspension, dump generation and
thread resumption, every principal mapping address), because the
crashing-thread-references-principal-mapping check is unimplemented
(`if true {{ return Err(..) }}`); and no byte is written to the
destination sink. -/
theorem dump_skip_stacks_always_errors
    (new_result : Except String (List MappingInfo))
    (suspend_result : List MappingInfo → Except String (List MappingInfo))
    (generate_dump : List MappingInfo → Except String (List Nat) × List SinkEvent)
    (resume_result : Except String Unit)
    (principal_mapping_address : Option Nat) :
    (∃ e, (MinidumpWriter.dump new_result suspend_result generate_dump resume_result
      true principal_mapping_address).1 = Except.error e) ∧
    (MinidumpWriter.dump new_result suspend_result generate_dump resume_result
      true principal_mapping_address).2 = [] := by
  unfold MinidumpWriter.dump
  cases new_result with
  | error e => exact ⟨⟨e, rfl⟩, rfl⟩
  | ok dumper =>
    cases hsus : suspend_result dumper with
    | error e =>
      simp only [hsus]
      exact ⟨⟨e, by trivial⟩, by trivial⟩
    | ok dumper2 =>
      simp only [hsus]
      exact ⟨⟨"!CrashingThreadReferencesPrincipalMapping", by trivial⟩, by trivial⟩

/-! ## Linux process reader probe failure -/

/-- C5. If on the first `ProcessReader::read` call all three mechanisms
fail (the scatter-gather syscall, `/proc/<pid>/mem` whether at open or
at read, and the ptrace peek), the cached `Style` becomes `Unavailable`
carrying all three errors, this call returns an error whose source is
the ptrace error, and every subsequent `read` call (any arguments, any
later environment) leaves the style unchanged and again returns an
error whose source is the ptrace error. -/
theorem read_probe_all_fail_unavailable
    (pid src len : Nat) (env : ReadEnv) (e1 e2 e3 : NixErr) (off : Nat)
    (h1 : env.vmem_result = .error e1)
    (h2 : (∃ f, env.open_result = .ok f ∧ env.file_result f = .error e2) ∨
      env.open_result = .error e2)
    (h3 : env.ptrace_result = .error (e3, off)) :
    ProcessReader.read pid src len env none =
      (some (.unavailable e1 e2 e3), .error ⟨pid, src, 0, len, e3⟩) ∧
    ∀ (pid' src' len' : Nat) (env' : ReadEnv),
      ProcessReader.read pid' src' len' env' (some (.unavailable e1 e2 e3)) =
        (some (.unavailable e1 e2 e3), .error ⟨pid', src', 0, len', e3⟩) := by
  constructor
  · unfold ProcessReader.read
    rcases h2 with ⟨f, hopen, hfile⟩ | hopen
    · simp only [h1, hopen, hfile]
      unfold readProbePtrace
      simp only [h3]
    · simp only [h1, hopen]
      unfold readProbePtrace
      simp only [h3]
  · intro pid' src' len' env'
    rfl

/-- Witness for C5 at a concrete environment where all three mechanisms
fail (the `/proc/<pid>/mem` failure happening at open). -/
theorem read_probe_all_fail_unavailable_witness :
    ((⟨.error 1, .error 2, fun _ => .error 9, .error (3, 0)⟩ : ReadEnv).vmem_result =
      .error 1) ∧
    ((∃ f, (⟨.error 1, .error 2, fun _ => .error 9, .error (3, 0)⟩ : ReadEnv).open_result =
        .ok f ∧
        (⟨.error 1, .error 2, fun _ => .error 9, .error (3, 0)⟩ : ReadEnv).file_result f =
        .error 2) ∨
      (⟨.error 1, .error 2, fun _ => .error 9, .error (3, 0)⟩ : ReadEnv).open_result =
        .error 2) ∧
    ((⟨.error 1, .error 2, fun _ => .error 9, .error (3, 0)⟩ : ReadEnv).ptrace_result =
      .error (3, 0)) ∧
    (ProcessReader.read 7 100 8 ⟨.error 1, .error 2, fun _ => .error 9, .error (3, 0)⟩ none =
      (some (.unavailable 1 2 3), .error ⟨7, 100, 0, 8, 3⟩) ∧
    ∀ (pid' src' len' : Nat) (env' : ReadEnv),
      ProcessReader.read pid' src' len' env' (some (.unavailable 1 2 3)) =
        (some (.unavailable 1 2 3), .error ⟨pid', src', 0, len', 3⟩)) := by
  have h1 : ((⟨.error 1, .error 2, fun _ => .error 9, .error (3, 0)⟩ : ReadEnv).vmem_result =
      .error 1) := rfl
  have h2 : (∃ f, (⟨.error 1, .error 2, fun _ => .error 9,
        .error (3, 0)⟩ : ReadEnv).open_result = .ok f ∧
        (⟨.error 1, .error 2, fun _ => .error 9, .error (3, 0)⟩ : ReadEnv).file_result f =
        .error 2) ∨
      (⟨.error 1, .error 2, fun _ => .error 9, .error (3, 0)⟩ : ReadEnv).open_result =
        .error 2 := Or.inr rfl
  have h3 : ((⟨.error 1, .error 2, fun _ => .error 9, .error (3, 0)⟩ : ReadEnv).ptrace_result =
      .error (3, 0)) := rfl
  exact ⟨h1, h2, h3, read_probe_all_fail_unavailable 7 100 8 _ 1 2 3 0 h1 h2 h3⟩

/-! ## String copy path equivalence lemmas -/

theorem bytesAt_length (mem : Nat → Nat) (address n : Nat) :
    (bytesAt mem address n).length = n := by
  simp [bytesAt]

theorem bytesAt_append (mem : Nat → Nat) (address k m : Nat) :
    bytesAt mem address (k + m) =
      bytesAt mem address k ++ (List.range m).map (fun i => mem (address + k + i)) := by
  unfold bytesAt
  rw [List.range_add, List.map_append, List.map_map]
  congr 1
  apply List.map_congr_left
  intro i _
  simp only [Function.comp_apply]
  congr 1
  omega

theorem wordBytesAt_eq (mem : Nat → Nat) (address k : Nat) :
    wordBytesAt mem (address + k) = (List.range 8).map (fun i => mem (address + k + i)) := rfl

theorem wordBytesAt_getElem (mem : Nat → Nat) (a t : Nat) (h : t < 8) :
    (wordBytesAt mem a)[t]? = some (mem (a + t)) := by
  unfold wordBytesAt
  rw [List.getElem?_map, List.getElem?_range h]
  rfl

theorem findIdxZero_aux :
    ∀ (l : List Nat) (i j : Nat),
      (∀ t, t < j → ∀ x, l[t]? = some x → x ≠ 0) → l[j]? = some 0 →
      List.findIdx? (fun e => e == 0) l i = some (i + j) := by
  intro l
  induction l with
  | nil => intro i j _ hj; simp at hj
  | cons a as ih =>
    intro i j hlt hj
    rw [List.findIdx?_cons]
    cases j with
    | zero =>
      simp only [List.getElem?_cons_zero, Option.some_inj] at hj
      rw [if_pos (by simp [hj])]
      simp
    | succ j =>
      have ha : a ≠ 0 := hlt 0 (Nat.succ_pos j) a (by simp)
      rw [if_neg (by simpa using ha)]
      have hstep := ih (i + 1) j
        (fun t ht x hx => hlt (t + 1) (Nat.succ_lt_succ ht) x (by simpa using hx))
        (by simpa using hj)
      rw [hstep]
      congr 1
      omega

theorem findIdxZero_none :
    ∀ (l : List Nat) (i : Nat), (∀ x ∈ l, x ≠ 0) →
      List.findIdx? (fun e => e == 0) l i = none := by
  intro l
  induction l with
  | nil => intro i _; rfl
  | cons a as ih =>
    intro i h
    rw [List.findIdx?_cons]
    rw [if_neg (by simpa using h a (List.mem_cons_self a as))]
    exact ih (i + 1) (fun x hx => h x (List.mem_cons.mpr (Or.inr hx)))

theorem copyStringWordByWord_succ (mem : Nat → Nat) (address : Nat) (acc : List Nat)
    (fuel : Nat) :
    copyStringWordByWord mem address acc (fuel + 1) =
      match List.findIdx? (fun e => e == 0) (wordBytesAt mem (address + acc.length)) with
      | some nul_terminator =>
          some (acc ++ (wordBytesAt mem (address + acc.length)).take (nul_terminator + 1))
      | none =>
          copyStringWordByWord mem address (acc ++ wordBytesAt mem (address + acc.length))
            fuel := rfl

theorem copyStringByByte_succ (mem : Nat → Nat) (address : Nat) (acc : List Nat)
    (fuel : Nat) :
    copyStringByByte mem address acc (fuel + 1) =
      if mem (address + acc.length) ≠ 0
      then copyStringByByte mem address (acc ++ [mem (address + acc.length)]) fuel
      else some (acc ++ [mem (address + acc.length)]) := rfl

theorem copyStringWordByWord_spec (mem : Nat → Nat) (address L : Nat)
    (hs : ∀ i, i < L → mem (address + i) ≠ 0) (hnul : mem (address + L) = 0) :
    ∀ (fuel : Nat) (k : Nat), (L - k) / 8 < fuel → k ≤ L →
      copyStringWordByWord mem address (bytesAt mem address k) fuel =
        some (bytesAt mem address (L + 1)) := by
  intro fuel
  induction fuel with
  | zero => intro k hfuel _; omega
  | succ fuel ih =>
    intro k hfuel hk
    rw [copyStringWordByWord_succ, bytesAt_length]
    by_cases hL : L < k + 8
    · have hfind : List.findIdx? (fun e => e == 0) (wordBytesAt mem (address + k)) 0 =
          some (0 + (L - k)) := by
        apply findIdxZero_aux
        · intro t ht x hx
          rw [wordBytesAt_getElem mem (address + k) t (by omega)] at hx
          rw [← Option.some_inj.mp hx]
          have harr : address + k + t = address + (k + t) := by omega
          rw [harr]
          exact hs (k + t) (by omega)
        · rw [wordBytesAt_getElem mem (address + k) (L - k) (by omega)]
          have harr : address + k + (L - k) = address + L := by omega
          rw [harr, hnul]
      rw [hfind]
      show some (bytesAt mem address k ++
        (wordBytesAt mem (address + k)).take (0 + (L - k) + 1)) = _
      rw [wordBytesAt_eq, ← List.map_take, List.take_range]
      have hmin : min (0 + (L - k) + 1) 8 = L - k + 1 := by omega
      rw [hmin, ← bytesAt_append]
      have harr : k + (L - k + 1) = L + 1 := by omega
      rw [harr]
    · have hfind : List.findIdx? (fun e => e == 0) (wordBytesAt mem (address + k)) 0 =
          none := by
        apply findIdxZero_none
        intro x hx
        rw [wordBytesAt_eq] at hx
        obtain ⟨i, hi, hxi⟩ := List.mem_map.mp hx
        rw [← hxi]
        have harr : address + k + i = address + (k + i) := by omega
        rw [harr]
        exact hs (k + i) (by simp at hi; omega)
      rw [hfind]
      show copyStringWordByWord mem address
        (bytesAt mem address k ++ wordBytesAt mem (address + k)) fuel = _
      rw [wordBytesAt_eq, ← bytesAt_append]
      exact ih (k + 8) (by omega) (by omega)

theorem copyStringByByte_spec (mem : Nat → Nat) (address L : Nat)
    (hs : ∀ i, i < L → mem (address + i) ≠ 0) (hnul : mem (address + L) = 0) :
    ∀ (fuel : Nat) (k : Nat), L - k < fuel → k ≤ L →
      copyStringByByte mem address (bytesAt mem address k) fuel =
        some (bytesAt mem address (L + 1)) := by
  intro fuel
  induction fuel with
  | zero => intro k hfuel _; omega
  | succ fuel ih =>
    intro k hfuel hk
    rw [copyStringByByte_succ, bytesAt_length]
    have hacc : bytesAt mem address k ++ [mem (address + k)] =
        bytesAt mem address (k + 1) := by
      rw [bytesAt_append mem address k 1]
      rw [show List.range 1 = [0] from rfl]
      simp
    rcases Nat.eq_or_lt_of_le hk with heq | hlt
    · rw [if_neg (by rw [heq]; simp [hnul])]
      rw [hacc, heq]
    · rw [if_pos (hs k hlt)]
      rw [hacc]
      exact ih (k + 1) (by omega) (by omega)

/-- C7. String-copy path equivalence: for every nul-terminated string
(of length `L`, followed by its nul) readable at `address` in the
target, the word-by-word path and the byte-by-byte fallback path return
the same byte sequence, namely the string's bytes including the
trailing nul (fuel `L + 1` suffices for both loops). -/
theorem copy_nul_terminated_string_paths_agree (mem : Nat → Nat) (address L : Nat)
    (hs : ∀ i, i < L → mem (address + i) ≠ 0) (hnul : mem (address + L) = 0) :
    copyStringWordByWord mem address [] (L + 1) = some (stringBytesAt mem address L) ∧
    copyStringByByte mem address [] (L + 1) = some (stringBytesAt mem address L) ∧
    (stringBytesAt mem address L).getLast? = some 0 := by
  have hnil : bytesAt mem address 0 = [] := rfl
  have hstring : stringBytesAt mem address L = bytesAt mem address (L + 1) := rfl
  refine ⟨?_, ?_, ?_⟩
  · rw [hstring, ← hnil]
    exact copyStringWordByWord_spec mem address L hs hnul (L + 1) 0 (by omega) (by omega)
  · rw [hstring, ← hnil]
    exact copyStringByByte_spec mem address L hs hnul (L + 1) 0 (by omega) (by omega)
  · unfold stringBytesAt
    rw [List.range_succ, List.map_append]
    simp [hnul]

/-- Witness for C7 at a concrete three-byte string followed by a nul. -/
theorem copy_nul_terminated_string_paths_agree_witness :
    (∀ i, i < 3 → (fun j : Nat => if j < 3 then 65 else 0) (0 + i) ≠ 0) ∧
    ((fun j : Nat => if j < 3 then 65 else 0) (0 + 3) = 0) ∧
    (copyStringWordByWord (fun j : Nat => if j < 3 then 65 else 0) 0 [] 4 =
      some (stringBytesAt (fun j : Nat => if j < 3 then 65 else 0) 0 3) ∧
    copyStringByByte (fun j : Nat => if j < 3 then 65 else 0) 0 [] 4 =
      some (stringBytesAt (fun j : Nat => if j < 3 then 65 else 0) 0 3) ∧
    (stringBytesAt (fun j : Nat => if j < 3 then 65 else 0) 0 3).getLast? = some 0) := by
  have h1 : ∀ i, i < 3 → (fun j : Nat => if j < 3 then 65 else 0) (0 + i) ≠ 0 := by decide
  have h2 : (fun j : Nat => if j < 3 then 65 else 0) (0 + 3) = 0 := rfl
  exact ⟨h1, h2, copy_nul_terminated_string_paths_agree _ 0 3 h1 h2⟩
